import Mathlib

/-!
Shallow embedding of the course-plan scheduling and constraint-validation
core of the AuditAI repository (src/frontend/src/App.jsx): the AND/OR
prerequisite evaluator, the multi-pass greedy scheduler, the plan
validator and the degree-progress aggregator, together with proofs of the
specification's claims about them.

JavaScript sets are modelled as lists (only membership is ever observed),
JS objects keyed by course code as association lists, and the `x || 3`
defaulting of falsy fields as an explicit zero test.
-/

/-- AND/OR prerequisite requirement tree node (the `prereqs_structured`
shape consumed by `evaluatePrereqTree`, App.jsx lines 713-719).
`other` stands for a node object whose `type` tag is none of
`COURSE`/`AND`/`OR`; the evaluator accepts such a node as satisfied. -/
inductive PrereqTree where
  | COURSE (code : String)
  | AND (requirements : List PrereqTree)
  | OR (requirements : List PrereqTree)
  | other
deriving Repr

/-- A professor record; `rating` is kept in tenths (43 stands for 4.3),
`avgGPA` in hundredths, so that the JS floating-point comparisons on the
one-decimal data are exact. -/
structure Prof where
  name : String
  rating : Nat
  avgGPA : Nat
deriving Repr, DecidableEq

/-- A course record as stored in `allCourses` (App.jsx). -/
structure Course where
  name : String := ""
  prereqs : List String := []
  credits : Nat := 3
  category : String := ""
  difficulty : Nat := 3
  workload : Nat := 3
  required : Bool := false
  professors : List Prof := []
  timeSlots : List String := []
  tags : List String := []
  description : String := ""
  prereqs_structured : Option PrereqTree := none
deriving Repr

/-- The course catalog: a JS object keyed by course code, modelled as an
association list in property-insertion order (`Object.entries` order). -/
abbrev Catalog := List (String × Course)

/-- `allCourses[code]` object lookup. -/
def lookupCourse (cat : Catalog) (code : String) : Option Course :=
  (cat.find? (fun p => p.1 == code)).map (·.2)

/-- One entry of the `SEMESTERS` array (App.jsx lines 564-573). -/
structure Semester where
  id : String
  name : String
deriving Repr, DecidableEq

/-- The fixed eight-slot semester grid `SEMESTERS` (App.jsx lines 564-573). -/
def SEMESTERS : List Semester :=
  [⟨"fall1", "Fall Y1"⟩, ⟨"spring1", "Spr Y1"⟩,
   ⟨"fall2", "Fall Y2"⟩, ⟨"spring2", "Spr Y2"⟩,
   ⟨"fall3", "Fall Y3"⟩, ⟨"spring3", "Spr Y3"⟩,
   ⟨"fall4", "Fall Y4"⟩, ⟨"spring4", "Spr Y4"⟩]

mutual
/-- `evaluatePrereqTree` (App.jsx lines 713-719) on a non-null node:
`COURSE` leaf is looked up in the taken set, `AND` maps to
`.every`, `OR` to `.some`, any other node evaluates to `true`. -/
def evalTree (taken : List String) : PrereqTree → Bool
  | .COURSE code => taken.contains code
  | .AND requirements => evalTreeAll taken requirements
  | .OR requirements => evalTreeAny taken requirements
  | .other => true

/-- `(node.requirements || []).every(r => evaluatePrereqTree(r, takenSet))`. -/
def evalTreeAll (taken : List String) : List PrereqTree → Bool
  | [] => true
  | t :: ts => evalTree taken t && evalTreeAll taken ts

/-- `(node.requirements || []).some(r => evaluatePrereqTree(r, takenSet))`. -/
def evalTreeAny (taken : List String) : List PrereqTree → Bool
  | [] => false
  | t :: ts => evalTree taken t || evalTreeAny taken ts
end

/-- `evaluatePrereqTree` including the `if (!node) return true` guard for a
null node. -/
def evaluatePrereqTree (node : Option PrereqTree) (taken : List String) : Bool :=
  match node with
  | none => true
  | some t => evalTree taken t

/-- `getCoursesBeforeSemester` (App.jsx lines 702-710): completed and
in-progress codes plus everything planned in a strictly earlier slot; a
semester id missing from `SEMESTERS` (`findIndex` = -1) contributes no
planned slots. -/
def getCoursesBeforeSemester (plan : String → List String)
    (completedCodes inProgressCodes : List String) (semesterId : String) :
    List String :=
  match SEMESTERS.findIdx? (fun s => s.id == semesterId) with
  | none => completedCodes ++ inProgressCodes
  | some semIndex =>
      (SEMESTERS.take semIndex).foldl
        (fun taken sem => taken ++ plan sem.id)
        (completedCodes ++ inProgressCodes)

/-- `prereqsMet` (App.jsx lines 722-734): unknown course is satisfied; a
structured tree is evaluated when present, otherwise the flat list is
AND-ed. -/
def prereqsMet (allCourses : Catalog) (plan : String → List String)
    (completedCodes inProgressCodes : List String)
    (code : String) (semesterId : String) : Bool :=
  match lookupCourse allCourses code with
  | none => true
  | some info =>
      let taken := getCoursesBeforeSemester plan completedCodes inProgressCodes semesterId
      match info.prereqs_structured with
      | some t => evalTree taken t
      | none => info.prereqs.all (fun p => taken.contains p)

/-- Specification reading (claim C1) of the requirement-tree semantics:
`COURSE` leaf satisfied iff its code meets the taken predicate, `AND` iff
every child is satisfied, `OR` iff some child is, and an unrecognized node
is satisfied. -/
inductive SatTree (P : String → Prop) : PrereqTree → Prop where
  | course {code : String} : P code → SatTree P (.COURSE code)
  | andAll {rs : List PrereqTree} : (∀ r ∈ rs, SatTree P r) → SatTree P (.AND rs)
  | orAny {rs : List PrereqTree} {r : PrereqTree} :
      r ∈ rs → SatTree P r → SatTree P (.OR rs)
  | other : SatTree P .other

/-- Specification taken-set (claim C1): a code counts as taken before the
slot of index `k` iff it is completed, in progress, or planned in a slot
of strictly smaller index. -/
def TakenSpec (plan : String → List String)
    (completedCodes inProgressCodes : List String) (k : Nat) (x : String) : Prop :=
  x ∈ completedCodes ∨ x ∈ inProgressCodes ∨
    ∃ i, i < k ∧ ∃ h : i < SEMESTERS.length, x ∈ plan (SEMESTERS[i].id)

/-- Induction principle for `PrereqTree` giving the inductive hypothesis
for every member of a child list. -/
theorem PrereqTree.inductionOn {motive : PrereqTree → Prop} :
    ∀ t : PrereqTree,
      (∀ code, motive (.COURSE code)) →
      (∀ rs, (∀ r ∈ rs, motive r) → motive (.AND rs)) →
      (∀ rs, (∀ r ∈ rs, motive r) → motive (.OR rs)) →
      motive .other → motive t
  | .COURSE code, hc, _, _, _ => hc code
  | .AND rs, hc, ha, ho, hother =>
      ha rs (fun r hr => have := List.sizeOf_lt_of_mem hr
        PrereqTree.inductionOn r hc ha ho hother)
  | .OR rs, hc, ha, ho, hother =>
      ho rs (fun r hr => have := List.sizeOf_lt_of_mem hr
        PrereqTree.inductionOn r hc ha ho hother)
  | .other, _, _, _, hother => hother
termination_by t => sizeOf t
decreasing_by
  · exact Nat.lt_trans (List.sizeOf_lt_of_mem hr) (by simp)
  · exact Nat.lt_trans (List.sizeOf_lt_of_mem hr) (by simp)

theorem evalTreeAll_eq_all (taken : List String) (ts : List PrereqTree) :
    evalTreeAll taken ts = ts.all (fun t => evalTree taken t) := by
  induction ts with
  | nil => rfl
  | cons t ts ih => simp [evalTreeAll, List.all_cons, ih]

theorem evalTreeAny_eq_any (taken : List String) (ts : List PrereqTree) :
    evalTreeAny taken ts = ts.any (fun t => evalTree taken t) := by
  induction ts with
  | nil => rfl
  | cons t ts ih => simp [evalTreeAny, List.any_cons, ih]

theorem SatTree_AND_iff {P : String → Prop} {rs : List PrereqTree} :
    SatTree P (.AND rs) ↔ ∀ r ∈ rs, SatTree P r := by
  constructor
  · intro h; cases h with | andAll h => exact h
  · exact SatTree.andAll

theorem SatTree_OR_iff {P : String → Prop} {rs : List PrereqTree} :
    SatTree P (.OR rs) ↔ ∃ r ∈ rs, SatTree P r := by
  constructor
  · intro h; cases h with | orAny hmem hr => exact ⟨_, hmem, hr⟩
  · intro ⟨r, hmem, hr⟩; exact SatTree.orAny hmem hr

theorem SatTree_COURSE_iff {P : String → Prop} {code : String} :
    SatTree P (.COURSE code) ↔ P code := by
  constructor
  · intro h; cases h with | course h => exact h
  · exact SatTree.course

/-- The executable evaluator agrees with the specification semantics. -/
theorem evalTree_iff_SatTree (taken : List String) (t : PrereqTree) :
    evalTree taken t = true ↔ SatTree (fun x => x ∈ taken) t := by
  refine PrereqTree.inductionOn
    (motive := fun t => evalTree taken t = true ↔ SatTree (fun x => x ∈ taken) t)
    t ?_ ?_ ?_ ?_
  · intro code
    simp [evalTree, SatTree_COURSE_iff]
  · intro rs ih
    simp only [evalTree, evalTreeAll_eq_all, List.all_eq_true, SatTree_AND_iff]
    exact ⟨fun h r hr => (ih r hr).mp (h r hr), fun h r hr => (ih r hr).mpr (h r hr)⟩
  · intro rs ih
    simp only [evalTree, evalTreeAny_eq_any, List.any_eq_true, SatTree_OR_iff]
    exact ⟨fun ⟨r, hr, h⟩ => ⟨r, hr, (ih r hr).mp h⟩,
           fun ⟨r, hr, h⟩ => ⟨r, hr, (ih r hr).mpr h⟩⟩
  · simp [evalTree]; exact SatTree.other

theorem mem_foldl_append (plan : String → List String) (l : List Semester)
    (init : List String) (x : String) :
    x ∈ l.foldl (fun taken sem => taken ++ plan sem.id) init ↔
      x ∈ init ∨ ∃ s ∈ l, x ∈ plan s.id := by
  induction l generalizing init with
  | nil => simp
  | cons s l ih =>
      simp only [List.foldl_cons, ih, List.mem_append, List.mem_cons]
      constructor
      · rintro ((h | h) | ⟨s', hs', hx⟩)
        · exact Or.inl h
        · exact Or.inr ⟨s, Or.inl rfl, h⟩
        · exact Or.inr ⟨s', Or.inr hs', hx⟩
      · rintro (h | ⟨s', (rfl | hs'), hx⟩)
        · exact Or.inl (Or.inl h)
        · exact Or.inl (Or.inr hx)
        · exact Or.inr ⟨s', hs', hx⟩

theorem findIdx?_SEMESTERS (k : Nat) (hk : k < SEMESTERS.length) :
    SEMESTERS.findIdx? (fun s => s.id == SEMESTERS[k].id) = some k := by
  have h8 : SEMESTERS.length = 8 := rfl
  have hk8 : k < 8 := by omega
  interval_cases k <;> rfl

theorem mem_getCoursesBeforeSemester (plan : String → List String)
    (completedCodes inProgressCodes : List String) (k : Nat)
    (hk : k < SEMESTERS.length) (x : String) :
    x ∈ getCoursesBeforeSemester plan completedCodes inProgressCodes
        (SEMESTERS[k].id) ↔
      TakenSpec plan completedCodes inProgressCodes k x := by
  unfold getCoursesBeforeSemester
  rw [findIdx?_SEMESTERS k hk, mem_foldl_append]
  unfold TakenSpec
  constructor
  · rintro (h | ⟨s, hs, hx⟩)
    · rcases List.mem_append.mp h with h1 | h2
      · exact Or.inl h1
      · exact Or.inr (Or.inl h2)
    · rw [List.mem_take_iff_getElem] at hs
      obtain ⟨i, hi, rfl⟩ := hs
      exact Or.inr (Or.inr ⟨i, Nat.lt_of_lt_of_le hi (Nat.min_le_left _ _),
        Nat.lt_of_lt_of_le hi (Nat.min_le_right _ _), hx⟩)
  · rintro (h | h | ⟨i, hik, hilen, hx⟩)
    · exact Or.inl (List.mem_append.mpr (Or.inl h))
    · exact Or.inl (List.mem_append.mpr (Or.inr h))
    · exact Or.inr ⟨SEMESTERS[i],
        List.mem_take_iff_getElem.mpr ⟨i, Nat.lt_min.mpr ⟨hik, hilen⟩, rfl⟩, hx⟩

theorem SatTree_congr {P Q : String → Prop} (h : ∀ x, P x ↔ Q x)
    (t : PrereqTree) : SatTree P t ↔ SatTree Q t := by
  refine PrereqTree.inductionOn
    (motive := fun t => SatTree P t ↔ SatTree Q t) t ?_ ?_ ?_ ?_
  · intro code; rw [SatTree_COURSE_iff, SatTree_COURSE_iff]; exact h code
  · intro rs ih
    rw [SatTree_AND_iff, SatTree_AND_iff]
    exact ⟨fun hall r hr => (ih r hr).mp (hall r hr),
           fun hall r hr => (ih r hr).mpr (hall r hr)⟩
  · intro rs ih
    rw [SatTree_OR_iff, SatTree_OR_iff]
    exact ⟨fun ⟨r, hr, hs⟩ => ⟨r, hr, (ih r hr).mp hs⟩,
           fun ⟨r, hr, hs⟩ => ⟨r, hr, (ih r hr).mpr hs⟩⟩
  · exact ⟨fun _ => SatTree.other, fun _ => SatTree.other⟩

/-- The concrete claim-C1 course X requiring `OR(AND(A,B), C)`. -/
def courseX : Course :=
  { prereqs_structured :=
      some (.OR [.AND [.COURSE "A", .COURSE "B"], .COURSE "C"]) }

/-- One-course catalog holding `courseX` under code "X". -/
def catalogX : Catalog := [("X", courseX)]

/-- C1: for every course code and semester slot, `prereqsMet` is true iff
the course's prerequisite specification is satisfied by the taken-set
built as the union of completed, in-progress, and every course placed in
a strictly earlier slot — a requirement tree evaluated with COURSE-leaf
membership, AND over all children and OR over any child when present,
and AND-all over the flat prerequisite list otherwise; in particular, for
course X requiring `OR(AND(A,B), C)`, the result is true with taken-set
`{C}`, false with `{A}`, and true with `{A,B}`. -/
theorem c1_prereqsMet_correct :
    (∀ (allCourses : Catalog) (plan : String → List String)
        (completedCodes inProgressCodes : List String) (code : String)
        (k : Nat) (hk : k < SEMESTERS.length) (info : Course) (t : PrereqTree),
        lookupCourse allCourses code = some info →
        info.prereqs_structured = some t →
        (prereqsMet allCourses plan completedCodes inProgressCodes code
            (SEMESTERS[k].id) = true ↔
          SatTree (TakenSpec plan completedCodes inProgressCodes k) t)) ∧
    (∀ (allCourses : Catalog) (plan : String → List String)
        (completedCodes inProgressCodes : List String) (code : String)
        (k : Nat) (hk : k < SEMESTERS.length) (info : Course),
        lookupCourse allCourses code = some info →
        info.prereqs_structured = none →
        (prereqsMet allCourses plan completedCodes inProgressCodes code
            (SEMESTERS[k].id) = true ↔
          ∀ p ∈ info.prereqs, TakenSpec plan completedCodes inProgressCodes k p)) ∧
    prereqsMet catalogX (fun _ => []) ["C"] [] "X" "fall1" = true ∧
    prereqsMet catalogX (fun _ => []) ["A"] [] "X" "fall1" = false ∧
    prereqsMet catalogX (fun _ => []) ["A", "B"] [] "X" "fall1" = true := by
  refine ⟨?_, ?_, by decide, by decide, by decide⟩
  · intro allCourses plan completedCodes inProgressCodes code k hk info t hl hs
    unfold prereqsMet
    rw [hl]
    simp only [hs]
    rw [evalTree_iff_SatTree]
    exact SatTree_congr
      (fun x => mem_getCoursesBeforeSemester plan completedCodes inProgressCodes k hk x) t
  · intro allCourses plan completedCodes inProgressCodes code k hk info hl hs
    unfold prereqsMet
    rw [hl]
    simp only [hs, List.all_eq_true, List.contains_iff_exists_mem_beq]
    constructor
    · intro h p hp
      obtain ⟨q, hq, hbeq⟩ := h p hp
      have hpq : p = q := by simpa using hbeq
      subst hpq
      exact (mem_getCoursesBeforeSemester plan completedCodes inProgressCodes k hk p).mp hq
    · intro h p hp
      exact ⟨p,
        (mem_getCoursesBeforeSemester plan completedCodes inProgressCodes k hk p).mpr (h p hp),
        by simp⟩

/-- Witness for C1 at a concrete input: the tree case applied to
`catalogX` at slot index 0 with completed set `{C}`. -/
theorem c1_prereqsMet_correct_witness :
    SatTree (TakenSpec (fun _ => []) ["C"] [] 0)
      (.OR [.AND [.COURSE "A", .COURSE "B"], .COURSE "C"]) :=
  (c1_prereqsMet_correct.1 catalogX (fun _ => []) ["C"] [] "X" 0 (by decide)
      courseX (.OR [.AND [.COURSE "A", .COURSE "B"], .COURSE "C"]) rfl rfl).mp
    (by decide)

theorem evalTree_mono {s1 s2 : List String} (hsub : ∀ x, x ∈ s1 → x ∈ s2) :
    ∀ t : PrereqTree, evalTree s1 t = true → evalTree s2 t = true := by
  intro t
  refine PrereqTree.inductionOn
    (motive := fun t => evalTree s1 t = true → evalTree s2 t = true) t ?_ ?_ ?_ ?_
  · intro code h
    simp only [evalTree, List.elem_iff] at h ⊢
    exact hsub code h
  · intro rs ih h
    simp only [evalTree, evalTreeAll_eq_all, List.all_eq_true] at h ⊢
    exact fun r hr => ih r hr (h r hr)
  · intro rs ih h
    simp only [evalTree, evalTreeAny_eq_any, List.any_eq_true] at h ⊢
    obtain ⟨r, hr, hres⟩ := h
    exact ⟨r, hr, ih r hr hres⟩
  · intro h; exact h

theorem mem_getCoursesBeforeSemester_mono (plan : String → List String)
    (inProgressCodes : List String) (semesterId : String)
    {c1 c2 : List String} (hsub : ∀ x, x ∈ c1 → x ∈ c2) :
    ∀ x, x ∈ getCoursesBeforeSemester plan c1 inProgressCodes semesterId →
      x ∈ getCoursesBeforeSemester plan c2 inProgressCodes semesterId := by
  intro x
  unfold getCoursesBeforeSemester
  cases SEMESTERS.findIdx? (fun s => s.id == semesterId) with
  | none =>
      intro h
      rcases List.mem_append.mp h with h1 | h2
      · exact List.mem_append.mpr (Or.inl (hsub x h1))
      · exact List.mem_append.mpr (Or.inr h2)
  | some k =>
      rw [mem_foldl_append, mem_foldl_append]
      rintro (h | h)
      · rcases List.mem_append.mp h with h1 | h2
        · exact Or.inl (List.mem_append.mpr (Or.inl (hsub x h1)))
        · exact Or.inl (List.mem_append.mpr (Or.inr h2))
      · exact Or.inr h

/-- C7: for a fixed course, semester slot, plan and in-progress set,
enlarging the completed set can only turn `prereqsMet` from false to
true, never the reverse. -/
theorem c7_prereqsMet_monotone (allCourses : Catalog)
    (plan : String → List String) (inProgressCodes : List String)
    (code semesterId : String) (c1 c2 : List String)
    (hsub : ∀ x, x ∈ c1 → x ∈ c2)
    (h : prereqsMet allCourses plan c1 inProgressCodes code semesterId = true) :
    prereqsMet allCourses plan c2 inProgressCodes code semesterId = true := by
  unfold prereqsMet at h ⊢
  cases hl : lookupCourse allCourses code with
  | none => rfl
  | some info =>
      rw [hl] at h
      cases hs : info.prereqs_structured with
      | some t =>
          simp only [hs] at h ⊢
          exact evalTree_mono
            (mem_getCoursesBeforeSemester_mono plan inProgressCodes semesterId hsub) t h
      | none =>
          simp only [hs, List.all_eq_true, List.elem_iff] at h ⊢
          exact fun p hp =>
            mem_getCoursesBeforeSemester_mono plan inProgressCodes semesterId hsub p (h p hp)

/-- A one-course catalog used as a concrete witness input: course Y has
the single flat prerequisite A. -/
def catalogY : Catalog := [("Y", { prereqs := ["A"] })]

/-- Witness for C7 at a concrete input: the completed set grows from
`{A}` to `{A, B}` and `prereqsMet` for Y stays true. -/
theorem c7_prereqsMet_monotone_witness :
    prereqsMet catalogY (fun _ => []) ["A", "B"] [] "Y" "fall1" = true :=
  c7_prereqsMet_monotone catalogY (fun _ => []) [] "Y" "fall1" ["A"] ["A", "B"]
    (by intro x hx; simp only [List.mem_singleton] at hx; simp [hx])
    (by decide)

/-- A prerequisite node object as it exists at JavaScript runtime: object
references may alias and form cycles, so a node is addressed by a
reference id and an `AND`/`OR` node stores the ids of its children. -/
inductive GraphNode where
  | COURSE (code : String)
  | AND (requirements : List Nat)
  | OR (requirements : List Nat)
  | other
deriving Repr, DecidableEq

/-- Short-circuiting traversal of a child list mirroring `.every`
(`stopVal = false`) and `.some` (`stopVal = true`); `none` propagates a
child evaluation that does not terminate. -/
def evalChildren (f : Nat → Option Bool) (stopVal : Bool) :
    List Nat → Option Bool
  | [] => some (!stopVal)
  | c :: rest =>
      match f c with
      | none => none
      | some b => if b = stopVal then some stopVal else evalChildren f stopVal rest

/-- `evaluatePrereqTree` (App.jsx lines 713-719) run on the runtime object
graph, with `fuel` bounding the recursion depth: a `none` result for every
fuel means the JS function recurses without bound on that node. The
function has no visited-set or revisit guard, exactly as in the source. -/
def evalTreeOnGraph (g : Nat → Option GraphNode) (taken : List String) :
    Nat → Nat → Option Bool
  | 0, _ => none
  | fuel + 1, nid =>
      match g nid with
      | none => some true
      | some (.COURSE code) => some (taken.contains code)
      | some (.AND rs) => evalChildren (evalTreeOnGraph g taken fuel) false rs
      | some (.OR rs) => evalChildren (evalTreeOnGraph g taken fuel) true rs
      | some .other => some true

/-- The malformed cyclic input: a single `AND` node whose requirements
array contains the node itself. -/
def cyclicNode : Nat → Option GraphNode
  | 0 => some (.AND [0])
  | _ + 1 => none

/-- C2 failing input: on the cyclic node graph the evaluator never
returns within any finite recursion depth — the revisit guard and
fail-closed diagnostic required by the claim do not exist in the code,
which instead recurses unboundedly (a stack-overflow crash at runtime). -/
theorem c2_evalTree_cyclic_diverges :
    ∀ (fuel : Nat) (taken : List String),
      evalTreeOnGraph cyclicNode taken fuel 0 = none := by
  intro fuel
  induction fuel with
  | zero => intro taken; rfl
  | succ n ih =>
      intro taken
      simp only [evalTreeOnGraph, cyclicNode, evalChildren, ih taken]

/-- `allCourses[c]?.credits || 3` (App.jsx): a missing course or a falsy
(zero) credit count defaults to 3. -/
def creditOf (cat : Catalog) (code : String) : Nat :=
  match lookupCourse cat code with
  | none => 3
  | some info => if info.credits = 0 then 3 else info.credits

/-- `allCourses[c]?.difficulty || 3`. -/
def difficultyOf (cat : Catalog) (code : String) : Nat :=
  match lookupCourse cat code with
  | none => 3
  | some info => if info.difficulty = 0 then 3 else info.difficulty

/-- The designated mandatory categories of the candidate filter
(App.jsx line 915). -/
def mandatoryCategories : List String :=
  ["cs_core", "math_core", "math_discrete", "stats", "science"]

/-- Construction of the `toPlace` candidate list (App.jsx lines 909-920):
catalog iteration order, skipping already-taken codes, duplicates, and
courses neither required nor in a mandatory category. -/
def buildToPlace (alreadyTaken : List String) :
    Catalog → List String → List String
  | [], _ => []
  | (code, info) :: rest, addedToPlace =>
      if !alreadyTaken.contains code && !addedToPlace.contains code &&
         (info.required || mandatoryCategories.contains info.category)
      then code :: buildToPlace alreadyTaken rest (code :: addedToPlace)
      else buildToPlace alreadyTaken rest addedToPlace

/-- The inner `for (let i = 0; i < SEMESTERS.length; i++)` search of
`getEarliestSemester` (App.jsx lines 932-934): the index of the first
slot containing the prerequisite, `none` for the JS -1. -/
def findPlacedSemAux (prereq : String) : List (List String) → Nat → Option Nat
  | [], _ => none
  | slot :: rest, i =>
      if slot.contains prereq then some i
      else findPlacedSemAux prereq rest (i + 1)

/-- The prerequisite scan inside `getEarliestSemester` (App.jsx lines
928-937): prerequisites already taken are skipped; a prerequisite placed
in no slot aborts with `none` (JS -1); otherwise the running minimum
semester is raised to just after the prerequisite's slot. -/
def earliestLoop (alreadyTaken : List String)
    (placedBySemester : List (List String)) (minSemester : Nat) :
    List String → Option Nat
  | [] => some minSemester
  | prereq :: rest =>
      if alreadyTaken.contains prereq then
        earliestLoop alreadyTaken placedBySemester minSemester rest
      else
        match findPlacedSemAux prereq placedBySemester 0 with
        | none => none
        | some prereqSem =>
            earliestLoop alreadyTaken placedBySemester
              (max minSemester (prereqSem + 1)) rest

/-- `getEarliestSemester` (App.jsx lines 922-939); `none` models the JS
-1 result for a course not yet eligible this pass. -/
def getEarliestSemester (cat : Catalog) (alreadyTaken : List String)
    (code : String) (placedBySemester : List (List String)) : Option Nat :=
  match lookupCourse cat code with
  | none => some 0
  | some info =>
      if info.prereqs.isEmpty then some 0
      else earliestLoop alreadyTaken placedBySemester 0 info.prereqs

/-- `const maxCredits = preferences.balanced ? 15 : 18` (App.jsx line 955). -/
def maxCreditsFor (balanced : Bool) : Nat := if balanced then 15 else 18

/-- The forward semester scan of the placement step (App.jsx lines
953-967): place the course in the first slot, from its earliest eligible
index on, whose credits stay within the cap and which, in balanced mode,
does not already hold two difficulty≥4 courses when the course itself has
difficulty≥4; `none` when no slot in range admits it. -/
def placeLoop (cat : Catalog) (balanced : Bool) (code : String)
    (placedBySemester : List (List String)) : List Nat → Option (List (List String))
  | [] => none
  | semIdx :: rest =>
      let slot := placedBySemester.getD semIdx []
      let semCredits := (slot.map (creditOf cat)).sum
      if semCredits + creditOf cat code ≤ maxCreditsFor balanced then
        if balanced = true ∧ difficultyOf cat code ≥ 4 ∧
            (slot.filter (fun c => difficultyOf cat c ≥ 4)).length ≥ 2 then
          placeLoop cat balanced code placedBySemester rest
        else
          some (placedBySemester.set semIdx (slot ++ [code]))
      else placeLoop cat balanced code placedBySemester rest

/-- The mutable state of `generateLocalSchedule`: the per-semester arrays
and the global `placed` set (seeded with completed ∪ inProgress). -/
structure SchedState where
  placedBySemester : List (List String)
  placed : List String

/-- One placement attempt for a single course (App.jsx lines 951-967):
compute the earliest eligible semester — `none` (JS -1, `continue`) when a
prerequisite is neither taken nor placed — then scan forward for a slot
that admits the course; `some` returns the updated semester arrays. -/
def tryPlaceCourse (cat : Catalog) (alreadyTaken : List String)
    (balanced : Bool) (st : SchedState) (code : String) :
    Option (List (List String)) :=
  match getEarliestSemester cat alreadyTaken code st.placedBySemester with
  | none => none
  | some earliestSem =>
      placeLoop cat balanced code st.placedBySemester
        ((List.range SEMESTERS.length).drop earliestSem)

/-- One pass of the placement loop (App.jsx lines 948-968). The JS `for`
loop iterates the `toPlace` array downward from the last index, splicing
out entries as they are placed, so the courses are processed in reverse
order while survivors keep their relative order; the Bool records whether
the pass placed any course (`changed`). -/
def runPass (cat : Catalog) (alreadyTaken : List String) (balanced : Bool)
    (st : SchedState) : List String → SchedState × List String × Bool
  | [] => (st, [], false)
  | code :: rest =>
      let res := runPass cat alreadyTaken balanced st rest
      let st1 := res.1
      let rest1 := res.2.1
      let ch1 := res.2.2
      if st1.placed.contains code then (st1, rest1, ch1)
      else
        match tryPlaceCourse cat alreadyTaken balanced st1 code with
        | none => (st1, code :: rest1, ch1)
        | some pbs2 => (⟨pbs2, code :: st1.placed⟩, rest1, true)

/-- The `while (changed && passes < 20)` driver (App.jsx lines 943-969),
with the remaining pass budget as fuel: stops early as soon as a pass
places nothing. -/
def runPasses (cat : Catalog) (alreadyTaken : List String) (balanced : Bool) :
    Nat → SchedState → List String → SchedState × List String
  | 0, st, pending => (st, pending)
  | fuel + 1, st, pending =>
      let res := runPass cat alreadyTaken balanced st pending
      if res.2.2 then runPasses cat alreadyTaken balanced fuel res.1 res.2.1
      else (res.1, res.2.1)

/-- `generateLocalSchedule` (App.jsx lines 905-973) run to its final
state: the filled `placedBySemester` array plus the list of courses still
unplaced after the passes (the surviving `toPlace` entries). -/
def generateLocalScheduleRun (cat : Catalog)
    (completedCodes inProgressCodes : List String) (balanced : Bool) :
    SchedState × List String :=
  let alreadyTaken := completedCodes ++ inProgressCodes
  let toPlace := buildToPlace alreadyTaken cat []
  runPasses cat alreadyTaken balanced 20
    ⟨SEMESTERS.map (fun _ => []), alreadyTaken⟩ toPlace

/-- The plan `generateLocalSchedule` writes back into the semester grid:
slot `i` of the result is the course list of `SEMESTERS[i]`. -/
def generateLocalSchedule (cat : Catalog)
    (completedCodes inProgressCodes : List String) (balanced : Bool) :
    List (List String) :=
  (generateLocalScheduleRun cat completedCodes inProgressCodes balanced).1.placedBySemester

/-- The offline fallback path of `generateOptimalSchedule` (App.jsx lines
858-902): it clears `autoplanWarnings` on entry and `generateLocalSchedule`
never adds any, so the local path always ends with an empty warning
list. -/
def generateLocalScheduleWithWarnings (cat : Catalog)
    (completedCodes inProgressCodes : List String) (balanced : Bool) :
    List (List String) × List String :=
  (generateLocalSchedule cat completedCodes inProgressCodes balanced, [])

/-- The flat prerequisite list the scheduler consults for a course
(`info.prereqs || []`, a missing course contributing none). -/
def prereqsOf (cat : Catalog) (code : String) : List String :=
  match lookupCourse cat code with
  | none => []
  | some info => info.prereqs

theorem mem_range_drop {k e n : Nat} (h : n ∈ (List.range k).drop e) :
    e ≤ n ∧ n < k := by
  rw [List.mem_drop_iff_getElem] at h
  obtain ⟨i, hi, hn⟩ := h
  rw [List.length_range] at hi
  rw [List.getElem_range] at hn
  omega

theorem findPlacedSemAux_spec (prereq : String) :
    ∀ (l : List (List String)) (s i : Nat),
      findPlacedSemAux prereq l s = some i →
      s ≤ i ∧ i - s < l.length ∧ prereq ∈ l.getD (i - s) [] := by
  intro l
  induction l with
  | nil => intro s i h; simp [findPlacedSemAux] at h
  | cons slot rest ih =>
      intro s i h
      rw [findPlacedSemAux] at h
      by_cases hc : slot.contains prereq
      · simp only [hc, if_pos] at h
        obtain rfl : s = i := by simpa using h
        refine ⟨Nat.le_refl _, ?_, ?_⟩
        · simp
        · simp only [Nat.sub_self]
          exact List.elem_iff.mp hc
      · simp only [hc, Bool.false_eq_true, if_neg, not_false_iff] at h
        obtain ⟨hs, hi, hmem⟩ := ih (s + 1) i h
        have heq : i - s = (i - (s + 1)) + 1 := by omega
        refine ⟨by omega, ?_, ?_⟩
        · simp only [List.length_cons]; omega
        · rw [heq, List.getD_cons_succ]
          exact hmem

theorem earliestLoop_ge (alreadyTaken : List String)
    (pbs : List (List String)) :
    ∀ (ps : List String) (m e : Nat),
      earliestLoop alreadyTaken pbs m ps = some e → m ≤ e := by
  intro ps
  induction ps with
  | nil => intro m e h; simp [earliestLoop] at h; omega
  | cons p rest ih =>
      intro m e h
      rw [earliestLoop] at h
      by_cases hc : alreadyTaken.contains p
      · simp only [hc, if_pos] at h; exact ih m e h
      · simp only [hc, Bool.false_eq_true, if_neg, not_false_iff] at h
        cases hf : findPlacedSemAux p pbs 0 with
        | none => rw [hf] at h; exact absurd h (by simp)
        | some prereqSem =>
            rw [hf] at h
            have := ih (max m (prereqSem + 1)) e h
            omega

theorem earliestLoop_spec (alreadyTaken : List String)
    (pbs : List (List String)) :
    ∀ (ps : List String) (m e : Nat),
      earliestLoop alreadyTaken pbs m ps = some e →
      ∀ p ∈ ps, alreadyTaken.contains p = false →
        ∃ i, i < pbs.length ∧ p ∈ pbs.getD i [] ∧ i < e := by
  intro ps
  induction ps with
  | nil => intro m e h p hp; simp at hp
  | cons q rest ih =>
      intro m e h p hp hnot
      rw [earliestLoop] at h
      rcases List.mem_cons.mp hp with rfl | hprest
      · rw [hnot] at h
        simp only [Bool.false_eq_true, if_neg, not_false_iff] at h
        cases hf : findPlacedSemAux p pbs 0 with
        | none => rw [hf] at h; exact absurd h (by simp)
        | some prereqSem =>
            rw [hf] at h
            obtain ⟨-, hi, hmem⟩ := findPlacedSemAux_spec p pbs 0 prereqSem hf
            have hge := earliestLoop_ge alreadyTaken pbs rest _ e h
            refine ⟨prereqSem, by simpa using hi, by simpa using hmem, by omega⟩
      · by_cases hc : alreadyTaken.contains q
        · simp only [hc, if_pos] at h
          exact ih m e h p hprest hnot
        · simp only [hc, Bool.false_eq_true, if_neg, not_false_iff] at h
          cases hf : findPlacedSemAux q pbs 0 with
          | none => rw [hf] at h; exact absurd h (by simp)
          | some prereqSem =>
              rw [hf] at h
              exact ih _ e h p hprest hnot

theorem getEarliestSemester_spec (cat : Catalog) (alreadyTaken : List String)
    (code : String) (pbs : List (List String)) (e : Nat)
    (h : getEarliestSemester cat alreadyTaken code pbs = some e) :
    ∀ p ∈ prereqsOf cat code, alreadyTaken.contains p = false →
      ∃ i, i < pbs.length ∧ p ∈ pbs.getD i [] ∧ i < e := by
  intro p hp hnot
  unfold prereqsOf at hp
  unfold getEarliestSemester at h
  cases hl : lookupCourse cat code with
  | none => rw [hl] at hp; simp at hp
  | some info =>
      rw [hl] at hp h
      have hp2 : p ∈ info.prereqs := hp
      by_cases hemp : info.prereqs.isEmpty
      · rw [List.isEmpty_iff] at hemp
        rw [hemp] at hp2
        simp at hp2
      · have h2 : earliestLoop alreadyTaken pbs 0 info.prereqs = some e := by
          simpa [hemp] using h
        exact earliestLoop_spec alreadyTaken pbs info.prereqs 0 e h2 p hp2 hnot

theorem placeLoop_spec (cat : Catalog) (balanced : Bool) (code : String) :
    ∀ (idxs : List Nat) (pbs pbs2 : List (List String)),
      placeLoop cat balanced code pbs idxs = some pbs2 →
      ∃ semIdx ∈ idxs,
        ((pbs.getD semIdx []).map (creditOf cat)).sum + creditOf cat code ≤
          maxCreditsFor balanced ∧
        pbs2 = pbs.set semIdx (pbs.getD semIdx [] ++ [code]) := by
  intro idxs
  induction idxs with
  | nil => intro pbs pbs2 h; simp [placeLoop] at h
  | cons semIdx rest ih =>
      intro pbs pbs2 h
      rw [placeLoop] at h
      by_cases hcred :
          (((pbs.getD semIdx []).map (creditOf cat)).sum + creditOf cat code ≤
            maxCreditsFor balanced)
      · simp only [hcred, if_pos] at h
        by_cases hhard : (balanced = true ∧ difficultyOf cat code ≥ 4 ∧
            ((pbs.getD semIdx []).filter (fun c => difficultyOf cat c ≥ 4)).length ≥ 2)
        · rw [if_pos hhard] at h
          obtain ⟨s, hs, hrest⟩ := ih pbs pbs2 h
          exact ⟨s, List.mem_cons_of_mem _ hs, hrest⟩
        · rw [if_neg hhard] at h
          obtain rfl : pbs.set semIdx (pbs.getD semIdx [] ++ [code]) = pbs2 := by
            simpa using h
          exact ⟨semIdx, List.mem_cons_self _ _, hcred, rfl⟩
      · simp only [hcred, if_neg, not_false_iff] at h
        obtain ⟨s, hs, hrest⟩ := ih pbs pbs2 h
        exact ⟨s, List.mem_cons_of_mem _ hs, hrest⟩

/-- Invariant of the scheduler state: eight slots; every slot within the
credit cap; every placed course in the `placed` set; no course twice in a
slot nor in two slots; and every flat prerequisite of a placed course
either already taken or placed strictly earlier. -/
def SchedInv (cat : Catalog) (alreadyTaken : List String) (balanced : Bool)
    (st : SchedState) : Prop :=
  st.placedBySemester.length = SEMESTERS.length ∧
  (∀ j : Nat, ((st.placedBySemester.getD j []).map (creditOf cat)).sum ≤
    maxCreditsFor balanced) ∧
  (∀ j : Nat, ∀ c ∈ st.placedBySemester.getD j [], c ∈ st.placed) ∧
  (∀ j : Nat, (st.placedBySemester.getD j []).Nodup) ∧
  (∀ i j : Nat, i ≠ j → ∀ c ∈ st.placedBySemester.getD i [],
    c ∉ st.placedBySemester.getD j []) ∧
  (∀ j : Nat, ∀ code ∈ st.placedBySemester.getD j [],
    ∀ p ∈ prereqsOf cat code,
      p ∈ alreadyTaken ∨ ∃ i, i < j ∧ p ∈ st.placedBySemester.getD i [])

theorem place_preserves_inv (cat : Catalog) (alreadyTaken : List String)
    (balanced : Bool) (st : SchedState) (code : String) (e : Nat)
    (hinv : SchedInv cat alreadyTaken balanced st)
    (hnot : st.placed.contains code = false)
    (he : getEarliestSemester cat alreadyTaken code st.placedBySemester = some e)
    (pbs2 : List (List String))
    (hp : placeLoop cat balanced code st.placedBySemester
        ((List.range SEMESTERS.length).drop e) = some pbs2) :
    SchedInv cat alreadyTaken balanced ⟨pbs2, code :: st.placed⟩ := by
  obtain ⟨hlen, hcredit, hsub, hnodup, hcross, horder⟩ := hinv
  obtain ⟨semIdx, hmemIdx, hcred, rfl⟩ :=
    placeLoop_spec cat balanced code _ st.placedBySemester pbs2 hp
  obtain ⟨hse, hslt⟩ := mem_range_drop hmemIdx
  have hsemlen : semIdx < st.placedBySemester.length := by omega
  have hnotmem : code ∉ st.placed := by
    intro hm
    simp at hnot
    exact hnot hm
  have hcodenotin : ∀ j : Nat, code ∉ st.placedBySemester.getD j [] :=
    fun j hmem => hnotmem (hsub j code hmem)
  have hgetD : ∀ j : Nat,
      (st.placedBySemester.set semIdx
        (st.placedBySemester.getD semIdx [] ++ [code])).getD j [] =
      if semIdx = j then st.placedBySemester.getD semIdx [] ++ [code]
      else st.placedBySemester.getD j [] := by
    intro j
    by_cases hj : j < st.placedBySemester.length
    · rw [List.getD_eq_getElem _ _ (by simpa using hj), List.getElem_set]
      by_cases hij : semIdx = j
      · rw [if_pos hij, if_pos hij]
      · rw [if_neg hij, if_neg hij, List.getD_eq_getElem _ _ hj]
    · have hij : semIdx ≠ j := by omega
      rw [if_neg hij, List.getD_eq_default _ _ (by simpa using Nat.le_of_not_lt hj),
        List.getD_eq_default _ _ (Nat.le_of_not_lt hj)]
  have hliftD : ∀ i : Nat, ∀ x, x ∈ st.placedBySemester.getD i [] →
      x ∈ (st.placedBySemester.set semIdx
        (st.placedBySemester.getD semIdx [] ++ [code])).getD i [] := by
    intro i x hx
    rw [hgetD]
    by_cases hij : semIdx = i
    · subst hij
      rw [if_pos rfl]
      exact List.mem_append_left _ hx
    · rw [if_neg hij]; exact hx
  refine ⟨by simpa using hlen, ?_, ?_, ?_, ?_, ?_⟩
  · -- credit cap
    intro j
    rw [hgetD]
    by_cases hij : semIdx = j
    · subst hij
      rw [if_pos rfl, List.map_append, List.sum_append]
      simpa using hcred
    · rw [if_neg hij]; exact hcredit j
  · -- subset of placed
    intro j c hc
    rw [hgetD] at hc
    by_cases hij : semIdx = j
    · rw [if_pos hij] at hc
      rcases List.mem_append.mp hc with hcs | hcc
      · exact List.mem_cons_of_mem _ (hsub semIdx c hcs)
      · simp only [List.mem_singleton] at hcc
        exact hcc ▸ List.mem_cons_self _ _
    · rw [if_neg hij] at hc
      exact List.mem_cons_of_mem _ (hsub j c hc)
  · -- within-slot nodup
    intro j
    rw [hgetD]
    by_cases hij : semIdx = j
    · rw [if_pos hij]
      rw [List.nodup_append]
      exact ⟨hnodup semIdx, List.nodup_singleton _,
        fun a ha hb => by
          simp only [List.mem_singleton] at hb
          exact hcodenotin semIdx (hb ▸ ha)⟩
    · rw [if_neg hij]; exact hnodup j
  · -- cross-slot disjointness
    intro i j hij c hci hcj
    rw [hgetD] at hci hcj
    by_cases hi : semIdx = i
    · rw [if_pos hi] at hci
      rw [if_neg (hi ▸ hij)] at hcj
      rcases List.mem_append.mp hci with hcs | hcc
      · exact hcross i j hij c (hi ▸ hcs) hcj
      · simp only [List.mem_singleton] at hcc
        exact hcodenotin j (hcc ▸ hcj)
    · rw [if_neg hi] at hci
      by_cases hj : semIdx = j
      · rw [if_pos hj] at hcj
        rcases List.mem_append.mp hcj with hcs | hcc
        · exact hcross i j hij c hci (hj ▸ hcs)
        · simp only [List.mem_singleton] at hcc
          exact hcodenotin i (hcc ▸ hci)
      · rw [if_neg hj] at hcj
        exact hcross i j hij c hci hcj
  · -- prerequisite ordering
    intro j code' hcode' p hp2
    rw [hgetD] at hcode'
    have hliftOld : ∀ jj : Nat, code' ∈ st.placedBySemester.getD jj [] →
        p ∈ alreadyTaken ∨ ∃ i, i < jj ∧
          p ∈ (st.placedBySemester.set semIdx
            (st.placedBySemester.getD semIdx [] ++ [code])).getD i [] := by
      intro jj hmem
      rcases horder jj code' hmem p hp2 with hleft | ⟨i, hilt, himem⟩
      · exact Or.inl hleft
      · exact Or.inr ⟨i, hilt, hliftD i p himem⟩
    by_cases hij : semIdx = j
    · rw [if_pos hij] at hcode'
      rcases List.mem_append.mp hcode' with hcs | hcc
      · exact hij ▸ hliftOld semIdx hcs
      · simp only [List.mem_singleton] at hcc
        subst hcc
        by_cases htaken : alreadyTaken.contains p
        · exact Or.inl (List.elem_iff.mp htaken)
        · obtain ⟨i, hilen, himem, hie⟩ :=
            getEarliestSemester_spec cat alreadyTaken code' st.placedBySemester e he
              p hp2 (Bool.not_eq_true _ ▸ htaken)
          refine Or.inr ⟨i, by omega, hliftD i p himem⟩
    · rw [if_neg hij] at hcode'
      exact hliftOld j hcode'

theorem tryPlace_preserves_inv (cat : Catalog) (alreadyTaken : List String)
    (balanced : Bool) (st : SchedState) (code : String)
    (hinv : SchedInv cat alreadyTaken balanced st)
    (hnot : st.placed.contains code = false)
    (pbs2 : List (List String))
    (hp : tryPlaceCourse cat alreadyTaken balanced st code = some pbs2) :
    SchedInv cat alreadyTaken balanced ⟨pbs2, code :: st.placed⟩ := by
  unfold tryPlaceCourse at hp
  cases he : getEarliestSemester cat alreadyTaken code st.placedBySemester with
  | none => rw [he] at hp; exact absurd hp (by simp)
  | some e =>
      rw [he] at hp
      exact place_preserves_inv cat alreadyTaken balanced st code e hinv hnot he pbs2 hp

theorem runPass_inv (cat : Catalog) (alreadyTaken : List String)
    (balanced : Bool) :
    ∀ (pending : List String) (st : SchedState),
      SchedInv cat alreadyTaken balanced st →
      SchedInv cat alreadyTaken balanced
        (runPass cat alreadyTaken balanced st pending).1 := by
  intro pending
  induction pending with
  | nil => exact fun st h => h
  | cons code rest ih =>
      intro st h
      have h1 := ih st h
      simp only [runPass]
      by_cases hc : (runPass cat alreadyTaken balanced st rest).1.placed.contains code = true
      · rw [if_pos hc]
        exact h1
      · rw [if_neg hc]
        cases hp : tryPlaceCourse cat alreadyTaken balanced
            (runPass cat alreadyTaken balanced st rest).1 code with
        | none => exact h1
        | some pbs2 =>
            exact tryPlace_preserves_inv cat alreadyTaken balanced _ code h1
              (by simpa using hc) pbs2 hp

theorem runPasses_inv (cat : Catalog) (alreadyTaken : List String)
    (balanced : Bool) :
    ∀ (fuel : Nat) (st : SchedState) (pending : List String),
      SchedInv cat alreadyTaken balanced st →
      SchedInv cat alreadyTaken balanced
        (runPasses cat alreadyTaken balanced fuel st pending).1 := by
  intro fuel
  induction fuel with
  | zero => exact fun st pending h => h
  | succ n ih =>
      intro st pending h
      simp only [runPasses]
      split
      · exact ih _ _ (runPass_inv cat alreadyTaken balanced pending st h)
      · exact runPass_inv cat alreadyTaken balanced pending st h

theorem initial_inv (cat : Catalog) (alreadyTaken : List String)
    (balanced : Bool) :
    SchedInv cat alreadyTaken balanced
      ⟨SEMESTERS.map (fun _ => []), alreadyTaken⟩ := by
  have hempty : ∀ j : Nat, (SEMESTERS.map (fun _ => ([] : List String))).getD j [] = [] := by
    intro j
    by_cases hj : j < (SEMESTERS.map (fun _ => ([] : List String))).length
    · rw [List.getD_eq_getElem _ _ hj, List.getElem_map]
    · exact List.getD_eq_default _ _ (Nat.le_of_not_lt hj)
  refine ⟨by simp, ?_, ?_, ?_, ?_, ?_⟩
  · intro j; rw [hempty j]; simp
  · intro j c hc; rw [hempty j] at hc; simp at hc
  · intro j; rw [hempty j]; exact List.nodup_nil
  · intro i j hij c hci; rw [hempty i] at hci; simp at hci
  · intro j code hcode; rw [hempty j] at hcode; simp at hcode

theorem generateLocalScheduleRun_inv (cat : Catalog)
    (completedCodes inProgressCodes : List String) (balanced : Bool) :
    SchedInv cat (completedCodes ++ inProgressCodes) balanced
      (generateLocalScheduleRun cat completedCodes inProgressCodes balanced).1 := by
  unfold generateLocalScheduleRun
  exact runPasses_inv cat (completedCodes ++ inProgressCodes) balanced 20 _ _
    (initial_inv cat (completedCodes ++ inProgressCodes) balanced)

/-- The claim-C3 catalog with a prerequisite 2-cycle: A requires B and B
requires A, both required for the major. -/
def cyclicCatalog : Catalog :=
  [("A", { prereqs := ["B"], required := true }),
   ("B", { prereqs := ["A"], required := true })]

/-- A two-course catalog where B has the single flat prerequisite A, used
as a concrete scheduling witness input. -/
def chainCatalog : Catalog :=
  [("A", { required := true }), ("B", { prereqs := ["A"], required := true })]

/-- C3 counterexample: on the 2-cycle catalog, course A remains unplaced
after the pass limit (it survives in the pending list and appears in no
slot), yet the warning list of the local scheduling path is empty — the
unplaced course is not reported as a warning, contrary to the claim. -/
theorem c3_counterexample :
    "A" ∈ (generateLocalScheduleRun cyclicCatalog [] [] false).2 ∧
    (∀ slot ∈ (generateLocalScheduleWithWarnings cyclicCatalog [] [] false).1,
      "A" ∉ slot) ∧
    (generateLocalScheduleWithWarnings cyclicCatalog [] [] false).2 = [] := by
  decide

/-- C3 amended: plan generation always terminates — the pass loop is
bounded by the fixed fuel of 20 and exits as soon as a pass places
nothing — and never fails: on the 2-cycle catalog the very first pass
already places no course, both A and B stay unplaced, the rest of the
plan (here all-empty slots) is still returned, and no warning is
produced: the local scheduler reports unplaced courses nowhere. -/
theorem c3_terminates_silently :
    (∀ (cat : Catalog) (completedCodes inProgressCodes : List String)
      (balanced : Bool),
      generateLocalScheduleWithWarnings cat completedCodes inProgressCodes balanced =
        (generateLocalSchedule cat completedCodes inProgressCodes balanced, [])) ∧
    (generateLocalScheduleRun cyclicCatalog [] [] false).1.placedBySemester =
      SEMESTERS.map (fun _ => []) ∧
    (generateLocalScheduleRun cyclicCatalog [] [] false).2 = ["A", "B"] ∧
    (runPass cyclicCatalog [] false ⟨SEMESTERS.map (fun _ => []), []⟩
      (buildToPlace [] cyclicCatalog [])).2.2 = false := by
  refine ⟨fun cat c ip b => rfl, by decide, by decide, by decide⟩

/-- C4: in any scheduler-produced plan, each flat prerequisite of a
scheduled course is either in completed/inProgress or assigned a strictly
earlier slot index. -/
theorem c4_ordering_invariant (cat : Catalog)
    (completedCodes inProgressCodes : List String) (balanced : Bool)
    (j : Nat) (code p : String)
    (hcode : code ∈
      (generateLocalSchedule cat completedCodes inProgressCodes balanced).getD j [])
    (hp : p ∈ prereqsOf cat code) :
    p ∈ completedCodes ++ inProgressCodes ∨
      ∃ i, i < j ∧
        p ∈ (generateLocalSchedule cat completedCodes inProgressCodes balanced).getD i [] :=
  (generateLocalScheduleRun_inv cat completedCodes inProgressCodes balanced).2.2.2.2.2
    j code hcode p hp

/-- Witness for C4 at a concrete input: B is scheduled in slot 1 of the
chain catalog and its prerequisite A is placed strictly earlier. -/
theorem c4_ordering_invariant_witness :
    "A" ∈ ([] ++ ([] : List String)) ∨
      ∃ i, i < 1 ∧ "A" ∈ (generateLocalSchedule chainCatalog [] [] false).getD i [] :=
  c4_ordering_invariant chainCatalog [] [] false 1 "B" "A" (by decide) (by decide)

/-- C5: every semester slot of a scheduler-produced plan stays within the
configured per-semester credit cap (15 in balanced mode, 18 otherwise). -/
theorem c5_credit_cap (cat : Catalog)
    (completedCodes inProgressCodes : List String) (balanced : Bool) (j : Nat) :
    (((generateLocalSchedule cat completedCodes inProgressCodes balanced).getD j []).map
      (creditOf cat)).sum ≤ maxCreditsFor balanced :=
  (generateLocalScheduleRun_inv cat completedCodes inProgressCodes balanced).2.1 j

/-- C6: each course code appears in at most one semester slot of a
scheduler-produced plan. -/
theorem c6_no_duplicate_placement (cat : Catalog)
    (completedCodes inProgressCodes : List String) (balanced : Bool)
    (i j : Nat) (code : String)
    (hi : code ∈
      (generateLocalSchedule cat completedCodes inProgressCodes balanced).getD i [])
    (hj : code ∈
      (generateLocalSchedule cat completedCodes inProgressCodes balanced).getD j []) :
    i = j := by
  by_contra hij
  exact (generateLocalScheduleRun_inv cat completedCodes inProgressCodes balanced).2.2.2.2.1
    i j hij code hi hj

/-- Witness for C6 at a concrete input: A is placed in slot 0 of the
chain-catalog plan, and the two slot indices containing it coincide. -/
theorem c6_no_duplicate_placement_witness : (0 : Nat) = 0 :=
  c6_no_duplicate_placement chainCatalog [] [] false 0 0 "A" (by decide) (by decide)

/-- `getSemesterCredits` (App.jsx lines 737-741). -/
def getSemesterCredits (cat : Catalog) (plan : String → List String)
    (semesterId : String) : Nat :=
  ((plan semesterId).map (creditOf cat)).sum

/-- The scheduling preferences consulted by the local validator. -/
structure Prefs where
  balanced : Bool := true
  bestProfessors : Bool := false

/-- The analysis record returned by `generateLocalAnalysis`
(App.jsx lines 1045-1050). -/
structure Analysis where
  overallScore : Int
  issues : List String
  suggestions : List String
  positives : List String
deriving Repr, DecidableEq

/-- The issues pushed for one semester (App.jsx lines 1010-1025), in
source order: credit overload, difficulty clustering, then one entry per
course whose prerequisites are not met. -/
def semesterIssues (cat : Catalog) (plan : String → List String)
    (completedCodes inProgressCodes : List String) (sem : Semester) :
    List String :=
  let courses := plan sem.id
  let credits := getSemesterCredits cat plan sem.id
  (if credits > 18 then
      [sem.name ++ ": " ++ toString credits ++ " credits is too heavy"]
    else []) ++
  (let hardCourses := courses.filter (fun c => difficultyOf cat c ≥ 4)
   if hardCourses.length ≥ 3 then
      [sem.name ++ ": " ++ toString hardCourses.length ++
        " difficult courses together"]
    else []) ++
  (courses.filter (fun code =>
      !(prereqsMet cat plan completedCodes inProgressCodes code sem.id))).map
    (fun code => code ++ ": Missing prerequisites")

/-- The positive note for a balanced 15-16 credit semester
(App.jsx line 1015). -/
def semesterPositives (cat : Catalog) (plan : String → List String)
    (sem : Semester) : List String :=
  let credits := getSemesterCredits cat plan sem.id
  if 15 ≤ credits ∧ credits ≤ 16 then
    [sem.name ++ ": Balanced " ++ toString credits ++ " credits"]
  else []

/-- `professors.sort((a, b) => b.rating - a.rating)[0]`: the first
professor of maximal rating (the JS descending sort is stable). -/
def bestProfessor : List Prof → Option Prof
  | [] => none
  | p :: rest =>
      match bestProfessor rest with
      | none => some p
      | some q => if q.rating > p.rating then some q else some p

/-- A tenths-scaled rating rendered the way JS prints the number
(4.3 for 43, 4 for 40). -/
def ratingStr (r : Nat) : String :=
  if r % 10 = 0 then toString (r / 10)
  else toString (r / 10) ++ "." ++ toString (r % 10)

/-- The great-professor positives (App.jsx lines 1028-1036), collected
over all planned courses in semester-grid order when the
`bestProfessors` preference is on; threshold rating 4.3. -/
def professorPositives (cat : Catalog) (plan : String → List String)
    (prefs : Prefs) : List String :=
  if prefs.bestProfessors then
    ((SEMESTERS.map (fun s => plan s.id)).flatten).filterMap (fun code =>
      match lookupCourse cat code with
      | none => none
      | some info =>
          match bestProfessor info.professors with
          | none => none
          | some bestProf =>
              if bestProf.rating ≥ 43 then
                some (code ++ ": Great professor option (" ++ bestProf.name ++
                  ", " ++ ratingStr bestProf.rating ++ "★)")
              else none)
  else []

/-- The two hard-coded elective suggestions (App.jsx lines 1038-1043). -/
def analysisSuggestions (plan : String → List String)
    (completedCodes : List String) : List String :=
  let allPlanned := (SEMESTERS.map (fun s => plan s.id)).flatten
  (if !allPlanned.contains "CS 4604" && !completedCodes.contains "CS 4604" then
      ["Add CS 4604 (Databases) - essential for industry, easy elective"]
    else []) ++
  (if !allPlanned.contains "CS 4804" && !completedCodes.contains "CS 4804" then
      ["Add CS 4804 (AI) - hot field, good professors"]
    else [])

/-- `generateLocalAnalysis` (App.jsx lines 1005-1051): per-semester
issues and positives, professor positives, suggestions, and the clamped
overall score `max(0, min(100, 100 - issues*12 + positives*5))`. -/
def generateLocalAnalysis (cat : Catalog) (plan : String → List String)
    (completedCodes inProgressCodes : List String) (prefs : Prefs) : Analysis :=
  let issues := (SEMESTERS.map
    (fun sem => semesterIssues cat plan completedCodes inProgressCodes sem)).flatten
  let positives := (SEMESTERS.map (fun sem => semesterPositives cat plan sem)).flatten
      ++ professorPositives cat plan prefs
  { overallScore :=
      max 0 (min 100 (100 - (issues.length : Int) * 12 + (positives.length : Int) * 5))
    issues := issues
    suggestions := analysisSuggestions plan completedCodes
    positives := positives }

theorem semesterIssues_overload (cat : Catalog) (plan : String → List String)
    (completedCodes inProgressCodes : List String) (sem : Semester)
    (h : getSemesterCredits cat plan sem.id > 18) :
    (sem.name ++ ": " ++ toString (getSemesterCredits cat plan sem.id) ++
      " credits is too heavy") ∈
      semesterIssues cat plan completedCodes inProgressCodes sem := by
  simp only [semesterIssues]
  apply List.mem_append_left
  apply List.mem_append_left
  rw [if_pos h]
  exact List.mem_singleton_self _

theorem semesterIssues_hard (cat : Catalog) (plan : String → List String)
    (completedCodes inProgressCodes : List String) (sem : Semester)
    (h : ((plan sem.id).filter (fun c => difficultyOf cat c ≥ 4)).length ≥ 3) :
    (sem.name ++ ": " ++
      toString ((plan sem.id).filter (fun c => difficultyOf cat c ≥ 4)).length ++
      " difficult courses together") ∈
      semesterIssues cat plan completedCodes inProgressCodes sem := by
  simp only [semesterIssues]
  apply List.mem_append_left
  apply List.mem_append_right
  rw [if_pos h]
  exact List.mem_singleton_self _

theorem semesterIssues_prereq (cat : Catalog) (plan : String → List String)
    (completedCodes inProgressCodes : List String) (sem : Semester)
    (code : String) (hmem : code ∈ plan sem.id)
    (h : prereqsMet cat plan completedCodes inProgressCodes code sem.id = false) :
    (code ++ ": Missing prerequisites") ∈
      semesterIssues cat plan completedCodes inProgressCodes sem := by
  simp only [semesterIssues]
  apply List.mem_append_right
  exact List.mem_map.mpr ⟨code, List.mem_filter.mpr ⟨hmem, by simp [h]⟩, rfl⟩

theorem mem_analysis_issues (cat : Catalog) (plan : String → List String)
    (completedCodes inProgressCodes : List String) (prefs : Prefs)
    (sem : Semester) (hsem : sem ∈ SEMESTERS) (s : String)
    (hs : s ∈ semesterIssues cat plan completedCodes inProgressCodes sem) :
    s ∈ (generateLocalAnalysis cat plan completedCodes inProgressCodes prefs).issues := by
  simp only [generateLocalAnalysis]
  exact List.mem_flatten.mpr ⟨_, List.mem_map_of_mem _ hsem, hs⟩

/-- The claim-C8 overload input: five 3-credit courses plus one 4-credit
course, all placed in the first semester (19 credits). -/
def overloadCatalog : Catalog :=
  [("O1", { credits := 3 }), ("O2", { credits := 3 }), ("O3", { credits := 3 }),
   ("O4", { credits := 3 }), ("O5", { credits := 3 }), ("O6", { credits := 4 })]

/-- The plan placing the six overload courses in `fall1`. -/
def overloadPlan : String → List String :=
  fun semesterId =>
    if semesterId == "fall1" then ["O1", "O2", "O3", "O4", "O5", "O6"] else []

/-- C8: for every plan, the Validator flags an issue for each semester
slot whose summed credits exceed 18 (in particular the concrete 19-credit
slot of five 3-credit courses plus one 4-credit course), flags an issue
when three or more difficulty≥4 courses co-occur in a slot, flags an
issue for each course in a slot whose `prereqsMet` is false, and returns
`clamp(0, 100, 100 - 12*issueCount + 5*positiveCount)` as overall
score. -/
theorem c8_validator_flags :
    (∀ (cat : Catalog) (plan : String → List String)
        (completedCodes inProgressCodes : List String) (prefs : Prefs)
        (sem : Semester), sem ∈ SEMESTERS →
      getSemesterCredits cat plan sem.id > 18 →
      (sem.name ++ ": " ++ toString (getSemesterCredits cat plan sem.id) ++
          " credits is too heavy") ∈
        (generateLocalAnalysis cat plan completedCodes inProgressCodes prefs).issues) ∧
    (∀ (cat : Catalog) (plan : String → List String)
        (completedCodes inProgressCodes : List String) (prefs : Prefs)
        (sem : Semester), sem ∈ SEMESTERS →
      ((plan sem.id).filter (fun c => difficultyOf cat c ≥ 4)).length ≥ 3 →
      (sem.name ++ ": " ++
          toString ((plan sem.id).filter (fun c => difficultyOf cat c ≥ 4)).length ++
          " difficult courses together") ∈
        (generateLocalAnalysis cat plan completedCodes inProgressCodes prefs).issues) ∧
    (∀ (cat : Catalog) (plan : String → List String)
        (completedCodes inProgressCodes : List String) (prefs : Prefs)
        (sem : Semester) (code : String), sem ∈ SEMESTERS →
      code ∈ plan sem.id →
      prereqsMet cat plan completedCodes inProgressCodes code sem.id = false →
      (code ++ ": Missing prerequisites") ∈
        (generateLocalAnalysis cat plan completedCodes inProgressCodes prefs).issues) ∧
    (∀ (cat : Catalog) (plan : String → List String)
        (completedCodes inProgressCodes : List String) (prefs : Prefs),
      (generateLocalAnalysis cat plan completedCodes inProgressCodes prefs).overallScore =
        max 0 (min 100
          (100 -
            12 * ((generateLocalAnalysis cat plan completedCodes inProgressCodes
              prefs).issues.length : Int) +
            5 * ((generateLocalAnalysis cat plan completedCodes inProgressCodes
              prefs).positives.length : Int)))) ∧
    ("Fall Y1: 19 credits is too heavy" ∈
      (generateLocalAnalysis overloadCatalog overloadPlan [] [] {}).issues) := by
  refine ⟨?_, ?_, ?_, ?_, by decide⟩
  · intro cat plan completedCodes inProgressCodes prefs sem hsem h
    exact mem_analysis_issues cat plan completedCodes inProgressCodes prefs sem hsem _
      (semesterIssues_overload cat plan completedCodes inProgressCodes sem h)
  · intro cat plan completedCodes inProgressCodes prefs sem hsem h
    exact mem_analysis_issues cat plan completedCodes inProgressCodes prefs sem hsem _
      (semesterIssues_hard cat plan completedCodes inProgressCodes sem h)
  · intro cat plan completedCodes inProgressCodes prefs sem code hsem hmem h
    exact mem_analysis_issues cat plan completedCodes inProgressCodes prefs sem hsem _
      (semesterIssues_prereq cat plan completedCodes inProgressCodes sem code hmem h)
  · intro cat plan completedCodes inProgressCodes prefs
    simp only [generateLocalAnalysis]
    ring_nf

/-- Witness for C8 at the concrete overload input: the 19-credit slot is
flagged. -/
theorem c8_validator_flags_witness :
    (("fall1" : String), ("Fall Y1" : String)).1 = "fall1" ∧
    ("Fall Y1: 19 credits is too heavy" ∈
      (generateLocalAnalysis overloadCatalog overloadPlan [] [] {}).issues) :=
  ⟨rfl, c8_validator_flags.1 overloadCatalog overloadPlan [] [] {}
    ⟨"fall1", "Fall Y1"⟩ (by decide) (by decide)⟩

/-- `DEGREE_REQUIREMENTS.stats.from` (App.jsx lines 529-535). -/
def statsOptions : List String := ["STAT 3006", "STAT 4705", "STAT 4714"]

/-- The Statistics percent of `degreeProgress` (App.jsx line 1551):
100 as soon as any pool course is completed, otherwise 0. -/
def statsPercent (completed : List String) : Nat :=
  let statsCompleted := statsOptions.filter (fun c => completed.contains c)
  if statsCompleted.length > 0 then 100 else 0

/-- The Statistics contribution to the overall completed totals
(App.jsx line 1555): `Math.min(1, statsCompleted.length)`. -/
def statsCompletedContribution (completed : List String) : Nat :=
  min 1 (statsOptions.filter (fun c => completed.contains c)).length

/-- `Math.round` of the non-negative rational `num/den` (floor of
`num/den + 1/2`), exact for the aggregator's percent arithmetic. -/
def jsRound (num den : Nat) : Nat := (2 * num + den) / (2 * den)

/-- The CS-elective filter (App.jsx line 1577): category `cs_elective`,
or a CS course whose number parses to 3000 or above. -/
def isCsElective (code : String) (info : Course) : Bool :=
  info.category == "cs_elective" ||
    (code.startsWith "CS" &&
      match ((code.splitOn " ").getD 1 "").toNat? with
      | none => false
      | some n => n ≥ 3000)

/-- The CS-elective pool drawn from the catalog (App.jsx lines 1576-1578). -/
def csElectives (cat : Catalog) : List String :=
  (cat.filter (fun p => isCsElective p.1 p.2)).map (fun p => p.1)

/-- The CS-electives percent (App.jsx line 1586):
`Math.round((Math.min(3, completedCount) / 3) * 100)`. -/
def csElectivesPercent (cat : Catalog) (completed : List String) : Nat :=
  jsRound
    (min 3 ((csElectives cat).filter (fun c => completed.contains c)).length * 100) 3

/-- The CS-electives contribution to the overall completed totals
(App.jsx line 1590): `Math.min(3, csElecCompleted.length)`. -/
def csElectivesContribution (cat : Catalog) (completed : List String) : Nat :=
  min 3 ((csElectives cat).filter (fun c => completed.contains c)).length

/-- C9: choose-N-from-pool categories cap the counted completed courses
at N, so finishing more than N pool courses reports exactly 100% and
never above; in particular the choose-1 statistics pool with two
completed courses reports `min(2,1)/1 = 100%`. -/
theorem c9_chooseN_cap :
    (∀ completed : List String,
      statsPercent completed ≤ 100 ∧ statsCompletedContribution completed ≤ 1) ∧
    (∀ completed : List String,
      1 ≤ (statsOptions.filter (fun c => completed.contains c)).length →
      statsPercent completed = 100) ∧
    (∀ (cat : Catalog) (completed : List String),
      csElectivesPercent cat completed ≤ 100 ∧
      csElectivesContribution cat completed ≤ 3) ∧
    (∀ (cat : Catalog) (completed : List String),
      3 ≤ ((csElectives cat).filter (fun c => completed.contains c)).length →
      csElectivesPercent cat completed = 100) ∧
    statsPercent ["STAT 3006", "STAT 4705"] = 100 ∧
    statsCompletedContribution ["STAT 3006", "STAT 4705"] = min 2 1 := by
  refine ⟨?_, ?_, ?_, ?_, by decide, by decide⟩
  · intro completed
    constructor
    · simp only [statsPercent]
      split <;> omega
    · exact Nat.min_le_left _ _
  · intro completed h
    simp only [statsPercent]
    rw [if_pos (by omega)]
  · intro cat completed
    constructor
    · simp only [csElectivesPercent]
      have hm : min 3 ((csElectives cat).filter (fun c => completed.contains c)).length ≤ 3 :=
        Nat.min_le_left _ _
      set m := min 3 ((csElectives cat).filter (fun c => completed.contains c)).length with hmdef
      interval_cases m <;> decide
    · exact Nat.min_le_left _ _
  · intro cat completed h
    simp only [csElectivesPercent]
    rw [Nat.min_eq_left h]
    decide

/-- Witness for C9 at the concrete input: two completed statistics pool
courses report 100%. -/
theorem c9_chooseN_cap_witness : statsPercent ["STAT 3006", "STAT 4705"] = 100 :=
  c9_chooseN_cap.2.1 ["STAT 3006", "STAT 4705"] (by decide)

/-- A course object as served by the backend `/courses` API: the fields
read by `loadCourses` (App.jsx lines 1100-1113), optional where the code
applies a `|| default`. -/
structure ApiCourse where
  code : String
  name : String := ""
  prereqs : Option (List String) := none
  credits : Option Nat := none
  category : Option String := none
  difficulty : Option Nat := none
  workload : Option Nat := none
  required_for : Option (List String) := none
  professors : Option (List Prof) := none
  typically_offered : Option (List String) := none
  tags : Option (List String) := none
  description : Option String := none
  prereqs_structured : Option PrereqTree := none

/-- The per-course conversion of `loadCourses` (App.jsx lines 1100-1113):
`x || default` on a falsy field becomes `Option.getD` plus a zero test
for the numeric fields. No `prereqs_structured` key is copied into the
stored record. -/
def convertApiCourse (course : ApiCourse) : Course :=
  { name := course.name
    prereqs := course.prereqs.getD []
    credits :=
      match course.credits with
      | none => 3
      | some c => if c = 0 then 3 else c
    category := course.category.getD ""
    difficulty :=
      match course.difficulty with
      | none => 3
      | some d => if d = 0 then 3 else d
    workload :=
      match course.workload with
      | none => 3
      | some w => if w = 0 then 3 else w
    required := (course.required_for.getD []).contains "cs_major"
    professors := course.professors.getD []
    timeSlots := course.typically_offered.getD []
    tags := course.tags.getD []
    description := course.description.getD "" }

/-- Replace every course's structured-tree field in a catalog. -/
def setCatalogTrees (cat : Catalog) (t : Option PrereqTree) : Catalog :=
  cat.map (fun p => (p.1, { p.2 with prereqs_structured := t }))

theorem lookupCourse_setCatalogTrees (cat : Catalog) (t : Option PrereqTree)
    (code : String) :
    lookupCourse (setCatalogTrees cat t) code =
      (lookupCourse cat code).map (fun c => { c with prereqs_structured := t }) := by
  induction cat with
  | nil => rfl
  | cons p rest ih =>
      simp only [setCatalogTrees, List.map_cons] at ih ⊢
      unfold lookupCourse
      cases h : (p.1 == code) with
      | true => simp only [List.find?_cons, h]; rfl
      | false => simp only [List.find?_cons, h]; exact ih

theorem getEarliestSemester_ignores_tree (cat : Catalog) (t : Option PrereqTree)
    (alreadyTaken : List String) (code : String) (pbs : List (List String)) :
    getEarliestSemester (setCatalogTrees cat t) alreadyTaken code pbs =
      getEarliestSemester cat alreadyTaken code pbs := by
  unfold getEarliestSemester
  rw [lookupCourse_setCatalogTrees]
  cases lookupCourse cat code with
  | none => rfl
  | some info => rfl

/-- A required course whose prerequisites exist only as a structured tree
(empty flat list): the scheduler sees no prerequisites at all. -/
def structuredOnlyCatalog : Catalog :=
  [("X", { prereqs := [], required := true,
           prereqs_structured := some (.COURSE "Z") })]

/-- C10: the earliest-eligible-semester computation reads only the flat
`prereqs` list — replacing every structured tree leaves it unchanged — so
a course whose prerequisites live only in `prereqs_structured` is treated
as prerequisite-free and is auto-placed in slot 0 even though
`prereqsMet` evaluates the tree to false there; and the API course
loader drops `prereqs_structured` entirely. -/
theorem c10_scheduler_ignores_structured :
    (∀ (cat : Catalog) (t : Option PrereqTree) (alreadyTaken : List String)
        (code : String) (pbs : List (List String)),
      getEarliestSemester (setCatalogTrees cat t) alreadyTaken code pbs =
        getEarliestSemester cat alreadyTaken code pbs) ∧
    getEarliestSemester structuredOnlyCatalog [] "X"
      (SEMESTERS.map (fun _ => [])) = some 0 ∧
    (generateLocalSchedule structuredOnlyCatalog [] [] false).getD 0 [] = ["X"] ∧
    prereqsMet structuredOnlyCatalog (fun _ => []) [] [] "X" "fall1" = false ∧
    (∀ course : ApiCourse, (convertApiCourse course).prereqs_structured = none) := by
  exact ⟨getEarliestSemester_ignores_tree, by decide, by decide, by decide,
    fun course => rfl⟩
